import Mathlib

/-!
Formal model of a small interactive shell implemented in TypeScript
(`src/app/main.ts`, `src/app/utils.ts`).  Strings are embedded as `List Char`
(`Str`); the Unicode NFC normalization performed by the source
(`String.prototype.normalize`) is modelled as the identity on these character
sequences (all inputs considered here are NFC fixed points).  Stateful output
(stdout, stderr, the single redirection target file) is modelled by explicit
state passing through `OutState`.
-/

set_option maxRecDepth 10000

namespace Shell

/-- Character sequences, the embedding of JavaScript strings. -/
abbrev Str := List Char

/-- Shorthand turning a Lean string literal into the embedded representation. -/
def strl (s : String) : Str := s.toList

/-- The single-quote character, `'`. -/
def squote : Char := Char.ofNat 39

/-- The backtick character. -/
def btick : Char := Char.ofNat 96

/-- JavaScript whitespace as used by `String.prototype.trim`:
ECMAScript WhiteSpace and LineTerminator code points. -/
def jsWs (c : Char) : Bool :=
  c.toNat ∈ [9, 10, 11, 12, 13, 32, 160, 0x1680, 0x2000, 0x2001, 0x2002,
    0x2003, 0x2004, 0x2005, 0x2006, 0x2007, 0x2008, 0x2009, 0x200A,
    0x2028, 0x2029, 0x202F, 0x205F, 0x3000, 0xFEFF]

/-- `String.prototype.trim`: removes leading and trailing whitespace. -/
def jsTrim (l : Str) : Str :=
  ((l.dropWhile jsWs).reverse.dropWhile jsWs).reverse

/-- Boolean prefix test on character sequences. -/
def isPrefixB : Str → Str → Bool
  | [], _ => true
  | _ :: _, [] => false
  | a :: p, b :: s => if a = b then isPrefixB p s else false

/-- Boolean infix (substring) test, modelling `String.prototype.includes`. -/
def isInfixB (p : Str) : Str → Bool
  | [] => isPrefixB p []
  | c :: s => isPrefixB p (c :: s) || isInfixB p s

/-- `Array.prototype.join(" ")`. -/
def joinSpace : List Str → Str
  | [] => []
  | [x] => x
  | x :: y :: ys => x ++ [' '] ++ joinSpace (y :: ys)

/-- The observable output state of the shell: everything written to stdout,
everything written to stderr, and the content of the redirection target file
(`none` = the file does not exist). -/
structure OutState where
  stdout : Str
  stderr : Str
  file : Option Str
deriving DecidableEq

/-- `redirectionOptions` from `main.ts`:
`["2>", "2>>", "1>", "1>>", ">", ">>"]`. -/
def redirectionOptions : List Str :=
  [strl "2>", strl "2>>", strl "1>", strl "1>>", strl ">", strl ">>"]

/-- The stdout-redirection operators (`case ">" | ">>" | "1>" | "1>>"` of the
switch in `processOutput`). -/
def isOutRedir (r : Str) : Bool :=
  r = strl ">" || r = strl ">>" || r = strl "1>" || r = strl "1>>"

/-- The stderr-redirection operators (`case "2>" | "2>>"`). -/
def isErrRedir (r : Str) : Bool :=
  r = strl "2>" || r = strl "2>>"

/-- `redirection?.includes(">>")`: append mode.  An absent redirection
(`undefined`) is falsy, hence truncate mode. -/
def appendModeB : Option Str → Bool
  | none => false
  | some r => isInfixB (strl ">>") r

/-- Lines 174-179 and 244-254 of `processOutput` in `main.ts`: the
trim/normalize/newline formatting followed by the direct write to the standard
streams (the `shouldWrite = false` path).  The recursive
`processOutput({content, isError})` calls inside the `shouldWrite` branch of
the source pass `shouldWrite = false`, so they are exactly this function. -/
def processOutputDirect (content : Str) (isError : Bool) (st : OutState) :
    OutState :=
  if content = [] then st
  else
    let formattedContent := jsTrim content
    let final :=
      if formattedContent.length > 0 ∧ formattedContent.getLast? ≠ some '\n'
      then formattedContent ++ ['\n'] else formattedContent
    if isError then { st with stderr := st.stderr ++ final }
    else { st with stdout := st.stdout ++ final }

/-- `processOutput` from `main.ts` (lines 161-255).  `shouldWrite` is the
source's `shouldWrite && writePath` (the write path is always a truthy string
at every call site, so it is not modelled separately; the target file is the
abstract single file of `OutState`).  `mkdirSync` and the stream write are
modelled as succeeding.  Opening the write stream with flag `w` truncates the
file, with flag `a` it appends; in both cases the file is created when
absent. -/
def processOutput (content : Str) (isError shouldWrite : Bool)
    (redirection : Option Str) (st : OutState) : OutState :=
  if content = [] then st
  else
    let formattedContent := jsTrim content
    let final :=
      if formattedContent.length > 0 ∧ formattedContent.getLast? ≠ some '\n'
      then formattedContent ++ ['\n'] else formattedContent
    if shouldWrite then
      let emitted :=
        match redirection with
        | some r =>
          if isOutRedir r then
            (if isError then ([], processOutputDirect content true st)
             else (final, st))
          else if isErrRedir r then
            (if isError then (final, st)
             else ([], processOutputDirect content false st))
          else (final, if isError then processOutputDirect content true st else st)
        | none => (final, if isError then processOutputDirect content true st else st)
      let contentCheck := emitted.1
      let st1 := emitted.2
      if appendModeB redirection then
        { st1 with file := some ((st.file.getD []) ++ contentCheck) }
      else
        { st1 with file := some contentCheck }
    else if isError then { st with stderr := st.stderr ++ final }
    else { st with stdout := st.stdout ++ final }

/-- `handleEcho` from `main.ts` (lines 786-800): writes the arguments joined
by single spaces.  `shouldWrite` is `outputArgs.length > 1`; the redirection
operator (the source reads it from the module-level `redirectionFlag`, which
`processLine` has just set whenever `outputArgs` is nonempty) is passed
explicitly. -/
def handleEcho (args outputArgs : List Str) (redirection : Option Str)
    (st : OutState) : OutState :=
  processOutput (joinSpace args) false (decide (outputArgs.length > 1))
    redirection st

/-! ### Tokenizer (`handleFormatting`, `main.ts` lines 578-661) -/

/-- The mutable locals of the tokenizer loop: the two quote flags, the escape
flag, the token accumulator and the emitted tokens. -/
structure TokState where
  inSingle : Bool
  inDouble : Bool
  esc : Bool
  current : Str
  tokens : List Str
deriving DecidableEq

/-- `updateToken`: append characters to the current token accumulator. -/
def updateToken (s : TokState) (cs : Str) : TokState :=
  { s with current := s.current ++ cs }

/-- One iteration of the `for (const char of formattedLine)` loop of
`handleFormatting`.  `homedir` is the value of `os.homedir()` used for tilde
expansion. -/
def tokStep (homedir : Str) (s : TokState) (c : Char) : TokState :=
  if s.esc then
    (if s.inDouble then
      (if c = '"' ∨ c = '\\' ∨ c = '$' ∨ c = btick then
        { updateToken s [c] with esc := false }
      else { updateToken s ['\\', c] with esc := false })
    else { updateToken s [c] with esc := false })
  else if (c = ' ' ∨ c = '\t') ∧ ¬s.inSingle ∧ ¬s.inDouble then
    (if s.current.length > 0 then
      { s with tokens := s.tokens ++ [s.current], current := [] }
    else s)
  else if c = '\\' then
    (if ¬s.inSingle then { s with esc := true } else updateToken s [c])
  else if c = squote then
    (if s.inDouble then updateToken s [c]
     else if ¬s.inSingle then { s with inSingle := true }
     else { s with inSingle := false })
  else if c = '"' then
    (if s.inSingle then updateToken s [c]
     else if ¬s.inDouble then { s with inDouble := true }
     else { s with inDouble := false })
  else if c = '~' then
    (if ¬s.inSingle ∧ ¬s.inDouble then updateToken s homedir
     else updateToken s [c])
  else updateToken s [c]

/-- `handleFormatting` from `main.ts`: run the tokenizer loop over the line
and flush the final token if nonempty.  The source first NFC-normalizes the
line; normalization is modelled as the identity on the embedded character
sequences. -/
def handleFormatting (homedir : Str) (line : Str) : List Str :=
  let s := line.foldl (tokStep homedir) ⟨false, false, false, [], []⟩
  if s.current.length > 0 then s.tokens ++ [s.current] else s.tokens

/-! ### Parser and dispatcher (`processLine`, `main.ts` lines 121-160) -/

/-- `getFirstCommonElementInArray` from `utils.ts`: the first element of
`searchArray` that occurs in `elementArray`. -/
def getFirstCommonElementInArray (searchArray : List Str)
    (elementArray : List Str) : Option Str :=
  searchArray.find? (fun e => elementArray.contains e)

/-- `Array.prototype.indexOf`: index of the first occurrence.  (JavaScript
returns `-1` when the element is absent; at the call site below the element
was just found by `find?`, so it is always present.) -/
def jsIndexOf : List Str → Str → Nat
  | [], _ => 0
  | a :: l, x => if a = x then 0 else jsIndexOf l x + 1

/-- Lines 124-131 of `processLine`: find the first redirection operator among
the arguments, remove it and the following token (`args.splice(redirectIndex,
2)`), and return the remaining arguments, the removed `outputArgs`, and the
operator (the value stored into `redirectionFlag`). -/
def extractRedirection (args : List Str) : List Str × List Str × Option Str :=
  match getFirstCommonElementInArray args redirectionOptions with
  | some r =>
    let i := jsIndexOf args r
    (args.take i ++ args.drop (i + 2), (args.drop i).take 2, some r)
  | none => (args, [], none)

/-- `shellCommands.escape` from `main.ts`. -/
def escapeCommands : List Str :=
  [strl "exit", strl "quit", strl "q", strl "escape", strl "esc"]

/-- `shellCommands.builtin` from `main.ts`. -/
def builtinCommands : List Str :=
  [strl "echo", strl "type", strl "pwd", strl "cd", strl "history"]

/-- `isEscapeCommand`. -/
def isEscapeCommand (command : Str) : Bool := escapeCommands.contains command

/-- `isShellBuiltInCommand`. -/
def isShellBuiltInCommand (command : Str) : Bool :=
  builtinCommands.contains command

/-- `isShellCommand`. -/
def isShellCommand (command : Str) : Bool :=
  isEscapeCommand command || isShellBuiltInCommand command

/-- Split a string on the path delimiter (`path.delimiter`, modelled as the
POSIX `:`).  `"".split(":")` is `[""]`, so the result is always nonempty. -/
def splitDelim (s : Str) : List Str :=
  match s with
  | [] => [[]]
  | c :: rest =>
    match splitDelim rest with
    | [] => [[]]
    | d :: ds => if c = ':' then [] :: d :: ds else (c :: d) :: ds

/-- `path.join(dir, command)`, abstracted: the executability oracle `accessX`
receives the joined path. -/
def joinPath (dir command : Str) : Str := dir ++ ['/'] ++ command

/-- `isExecutable` from `main.ts` (lines 846-879) with `log = false`:
whether some directory of the search path contains `command` as an
executable, as judged by the oracle `accessX` (the embedding of
`fs.accessSync(fullPath, X_OK)`).  The loop breaks immediately when `command`
is the empty (falsy) string. -/
def isExecutable (accessX : Str → Bool) (pathToCheck : Str)
    (command : Str) : Bool :=
  command ≠ [] && (splitDelim pathToCheck).any (fun dir => accessX (joinPath dir command))

/-- `isExecutable` with `log = true`, as called by `handleType`: also emits
`"<command> is <fullpath>"` for the first hit or `"<command>: not found"`. -/
def isExecutableLog (accessX : Str → Bool) (pathToCheck : Str)
    (command : Str) (outputArgs : List Str) (redirection : Option Str)
    (st : OutState) : OutState :=
  match (splitDelim pathToCheck).find?
      (fun dir => command ≠ [] && accessX (joinPath dir command)) with
  | some dir =>
    processOutput (command ++ strl " is " ++ joinPath dir command) false
      (decide (outputArgs.length > 1)) redirection st
  | none =>
    processOutput (command ++ strl ": not found") true
      (decide (outputArgs.length > 1)) redirection st

/-- `handleType` from `main.ts` (lines 801-828).  `pathVar` is
`process.env.PATH` (`none` = unset).  The search branch reuses
`isExecutableLog`. -/
def handleType (accessX : Str → Bool) (pathVar : Option Str)
    (checkCommand : Str) (outputArgs : List Str) (redirection : Option Str)
    (st : OutState) : OutState :=
  if checkCommand = [] then
    processOutput (strl "type: please include an argument") true
      (decide (outputArgs.length > 1)) redirection st
  else if isShellCommand checkCommand then
    processOutput (checkCommand ++ strl " is a shell builtin") false
      (decide (outputArgs.length > 1)) redirection st
  else
    match pathVar with
    | some p =>
      if p ≠ [] then isExecutableLog accessX p checkCommand outputArgs redirection st
      else processOutput (checkCommand ++ strl ": please set PATH") true
        (decide (outputArgs.length > 1)) redirection st
    | none =>
      processOutput (checkCommand ++ strl ": please set PATH") true
        (decide (outputArgs.length > 1)) redirection st

/-- `processLine` from `main.ts` (lines 121-160).  The bodies of
`handleShellCommands` and `handleExecutable` are irrelevant to the dispatch
itself and are passed as the parameters `builtinEff` and `spawnEff`
(receiving the command, the spliced arguments, the removed `outputArgs` and
the extracted redirection operator).  `accessX`/`pathVar` drive
`isExecutable`.  `pipe` is the `pipe` parameter of the source. -/
def processLine (builtinEff spawnEff : Str → List Str → List Str → Option Str → OutState → OutState)
    (accessX : Str → Bool) (pathVar : Str) (tokens : List Str) (pipe : Bool)
    (st : OutState) : OutState :=
  match tokens with
  | [] => st
  | root :: args0 =>
    let ex := extractRedirection args0
    let args := ex.1
    let outputArgs := ex.2.1
    let redirect := ex.2.2
    if isShellCommand root then builtinEff root args outputArgs redirect st
    else if isExecutable accessX pathVar root then
      spawnEff root args outputArgs redirect st
    else if root ≠ [] ∧ args.length > 0 then
      processOutput (root ++ strl ": " ++ args.headI ++ strl " not found") true
        (decide (outputArgs.length > 1)) redirect st
    else if root ≠ [] ∧ ¬pipe then
      processOutput (joinSpace tokens ++ strl ": command not found") true
        (decide (outputArgs.length > 1)) redirect st
    else st

/-- The `case "echo"` arm of the `handleShellCommands` switch; the other
commands are irrelevant where this is used and act as the identity. -/
def echoOnlyDispatch (command : Str) (args outputArgs : List Str)
    (redirect : Option Str) (st : OutState) : OutState :=
  if command = strl "echo" then handleEcho args outputArgs redirect st else st

/-! ### History store (`main.ts` lines 76-79, 110-120, 664-757) -/

/-- `Map.prototype.set` on the entry list of the history `Map`: update in
place when the key is present (preserving insertion order), otherwise append.
The source's `history.size` is the number of keys, which equals the length of
the entry list (keys are unique by `Map` semantics, and `mapSet` never
introduces a duplicate). -/
def mapSet (m : List (Nat × Str)) (k : Nat) (v : Str) : List (Nat × Str) :=
  if m.any (fun p => p.1 = k) then
    m.map (fun p => if p.1 = k then (k, v) else p)
  else m ++ [(k, v)]

/-- The history store: the `Map` entries plus `previousAppendSize` (the
append cursor advanced by `history -a`). -/
structure HistoryState where
  entries : List (Nat × Str)
  appendCursor : Nat
deriving DecidableEq

/-- `processInput` (line 111): `history.set(history.size + 1, line)`. -/
def promptAppend (line : Str) (st : HistoryState) : HistoryState :=
  { st with entries := mapSet st.entries (st.entries.length + 1) line }

/-- The `-r` branch of `handleHistory`: for each line of the file, skip it
when it trims to empty, otherwise `history.set(history.size + 1,
line.trim())`. -/
def historyReadLines (fileLines : List Str) (st : HistoryState) :
    HistoryState :=
  { st with
    entries :=
      fileLines.foldl
        (fun m l =>
          if (jsTrim l).length < 1 then m
          else mapSet m (m.length + 1) (jsTrim l))
        st.entries }

/-- The `-a` branch of `handleHistory`: splice the values from
`previousAppendSize` out of a copy of the value array (the store itself is
unchanged) and advance `previousAppendSize` by the length of the slice. -/
def historyAppendFlush (st : HistoryState) : HistoryState :=
  let historyData := st.entries.map (fun p => p.2)
  let appended := (historyData.drop st.appendCursor).take
    (historyData.length - st.appendCursor)
  { st with appendCursor := st.appendCursor + appended.length }

/-- The session states reachable from startup (empty store, cursor 0) by
the operations that touch the history store: appending a prompted line
(`processInput`), `history -r` (also run once at startup on the history
file), and `history -a` (`history -w` does not mutate the store). -/
inductive ReachableHistory : HistoryState → Prop where
  | init : ReachableHistory ⟨[], 0⟩
  | prompt (line : Str) {st : HistoryState} (h : ReachableHistory st) :
      ReachableHistory (promptAppend line st)
  | readFile (fileLines : List Str) {st : HistoryState}
      (h : ReachableHistory st) :
      ReachableHistory (historyReadLines fileLines st)
  | appendFlush {st : HistoryState} (h : ReachableHistory st) :
      ReachableHistory (historyAppendFlush st)

/-- The history-store invariant claimed by the specification: the keys are
exactly `1, 2, ..., len` in order, and the append cursor never exceeds the
store size. -/
def historyInv (st : HistoryState) : Prop :=
  st.entries.map Prod.fst = List.range' 1 st.entries.length
  ∧ st.appendCursor ≤ st.entries.length

/-! ### Trie (`utils.ts`): `TrieNode`, `insert`, `search`, `autocomplete`.
Children are embedded as an insertion-ordered association list, matching
`Map` iteration order. -/

mutual
inductive TrieNode : Type where
  | mk (isEnd : Bool) (children : ChildList)
inductive ChildList : Type where
  | nil
  | cons (key : Char) (node : TrieNode) (rest : ChildList)
end

/-- The `isEnd` flag of a node. -/
def TrieNode.isEnd : TrieNode → Bool
  | .mk e _ => e

/-- The children of a node. -/
def TrieNode.children : TrieNode → ChildList
  | .mk _ cs => cs

/-- `Map.prototype.get` on the children. -/
def ChildList.getNode : ChildList → Char → Option TrieNode
  | .nil, _ => none
  | .cons k n rest, c => if k = c then some n else rest.getNode c

/-- `Map.prototype.set` on the children: replace in place or append. -/
def ChildList.setNode : ChildList → Char → TrieNode → ChildList
  | .nil, c, n => .cons c n .nil
  | .cons k m rest, c, n =>
    if k = c then .cons k n rest else .cons k m (rest.setNode c n)

/-- `Map.prototype.has` on the children. -/
def ChildList.hasKey : ChildList → Char → Bool
  | .nil, _ => false
  | .cons k _ rest, c => k = c || rest.hasKey c

/-- `Trie.insert`: walk the word creating missing children, then set
`isEnd` on the final node. -/
def TrieNode.insert : TrieNode → Str → TrieNode
  | .mk _ cs, [] => .mk true cs
  | .mk e cs, c :: w =>
    let child := match cs.getNode c with
      | some n => n
      | none => .mk false .nil
    .mk e (cs.setNode c (child.insert w))

/-- `Trie.search`: walk the word; `none` when a child is missing. -/
def TrieNode.search : TrieNode → Str → Option TrieNode
  | t, [] => some t
  | t, c :: w =>
    match t.children.getNode c with
    | none => none
    | some n => n.search w

mutual
/-- `Trie._collect`: the word at this node if `isEnd`, then the words of the
children in insertion order. -/
def TrieNode.collect : TrieNode → Str → List Str
  | .mk e cs, w => (if e then [w] else []) ++ ChildList.collectAll cs w
/-- `_collect` over the child list (`for (const [ch, nextNode] of
node.children)`). -/
def ChildList.collectAll : ChildList → Str → List Str
  | .nil, _ => []
  | .cons c n rest, w =>
    TrieNode.collect n (w ++ [c]) ++ ChildList.collectAll rest w
end

/-- `Trie.autocomplete`. -/
def TrieNode.autocomplete (t : TrieNode) (p : Str) : List Str :=
  match t.search p with
  | none => []
  | some n => n.collect p

/-- `search(word)?.isEnd` as a truthy test (`undefined` is falsy). -/
def TrieNode.containsW (t : TrieNode) (w : Str) : Bool :=
  match t.search w with
  | none => false
  | some n => n.isEnd

/-- The trie built by inserting a list of words into a fresh `Trie`. -/
def Trie.fromWords (ws : List Str) : TrieNode :=
  ws.foldl TrieNode.insert (.mk false .nil)

mutual
/-- Well-formedness: every child list has pairwise-distinct keys, as `Map`
guarantees. -/
inductive TrieNode.WF : TrieNode → Prop where
  | mk (e : Bool) (cs : ChildList) : ChildList.WFC cs → TrieNode.WF (.mk e cs)
inductive ChildList.WFC : ChildList → Prop where
  | nil : ChildList.WFC .nil
  | cons (c : Char) (n : TrieNode) (rest : ChildList) :
      TrieNode.WF n → ChildList.WFC rest →
      ChildList.hasKey rest c = false → ChildList.WFC (.cons c n rest)
end

/-! ### Completion (`findLCP` from `utils.ts`, `handleTabCompletion` and the
`completer` callback from `main.ts`) -/

/-- The inner `while` loop of `findLCP`: shorten the running prefix from the
end until the string starts with it (`strings[i].indexOf(prefix) === 0`).
The source's early `return ""` when the prefix becomes empty yields the same
value, since the empty prefix is a prefix of everything. -/
def shortenToPrefixOf (p s : Str) : Str :=
  if h : isPrefixB p s then p else shortenToPrefixOf p.dropLast s
termination_by p.length
decreasing_by
  cases p with
  | nil => simp [isPrefixB] at h
  | cons a q => simp [List.length_dropLast]

/-- `findLCP` from `utils.ts`. -/
def findLCP : List Str → Str
  | [] => []
  | s :: rest => rest.foldl shortenToPrefixOf s

/-- Lexicographic comparison by code point, the embedding of the default
`Array.prototype.sort` comparison (which compares UTF-16 code units; the
orders agree on the basic multilingual plane, and nothing proved below
depends on the order itself). -/
def lexLe : Str → Str → Bool
  | [], _ => true
  | _ :: _, [] => false
  | a :: as, b :: bs => if a = b then lexLe as bs else decide (a.toNat < b.toNat)

/-- Insertion step of the sort. -/
def insertSortedStr (x : Str) : List Str → List Str
  | [] => [x]
  | y :: ys => if lexLe x y then x :: y :: ys else y :: insertSortedStr x ys

/-- `matches.sort()`, embedded as insertion sort by `lexLe`. -/
def sortStrings : List Str → List Str
  | [] => []
  | x :: xs => insertSortedStr x (sortStrings xs)

/-- `handleTabCompletion` from `main.ts` (lines 462-482).  The source tests
`exactMatch` before the match count; the branches are arranged here by match
count first, which coincides case by case: with one match and an exact match
it returns `input + " "`, with one match otherwise `matches[0] + " "`, and
with several matches `matches.sort()` whether or not the input is an exact
word. -/
def handleTabCompletion (t : TrieNode) (line : Str) : List Str × Str :=
  if line.length = 0 then ([], line)
  else
    let input := jsTrim line
    let matchList := t.autocomplete input
    match matchList with
    | [] => ([], input)
    | [m] =>
      if t.containsW input then ([input ++ [' ']], input)
      else ([m ++ [' ']], input)
    | _ => (sortStrings matchList, input)

/-- The completion value returned by the `completer` callback (`main.ts`
lines 14-59): with no matches, or with several matches whose LCP does not
extend the input (the bell / double-tab display paths), no completion is
returned. -/
def completer (t : TrieNode) (line : Str) : List Str × Str :=
  let r := handleTabCompletion t line
  match r.1 with
  | [] => ([], r.2)
  | [m] => ([m], r.2)
  | _ =>
    let lcp := findLCP r.1
    if r.2.length < lcp.length then ([lcp], r.2) else ([], r.2)

/-! ### Basic facts about `jsTrim` and the output formatting -/

theorem dropWhile_eq_self_of_head {p : Char → Bool} {l : Str}
    (h : ∀ a ∈ l.head?, p a = false) : l.dropWhile p = l := by
  cases l with
  | nil => rfl
  | cons a l =>
    have : p a = false := h a rfl
    simp [List.dropWhile, this]

theorem head?_dropWhile_false {p : Char → Bool} {l : Str} {a : Char}
    (h : (l.dropWhile p).head? = some a) : p a = false := by
  induction l with
  | nil => simp [List.dropWhile] at h
  | cons b l ih =>
    by_cases hb : p b
    · simp [List.dropWhile, hb] at h
      exact ih h
    · simp [List.dropWhile, hb] at h
      subst h
      simpa using hb

theorem getLast?_dropWhile {p : Char → Bool} {l : Str} {c : Char}
    (h : l.getLast? = some c) (hc : p c = false) :
    (l.dropWhile p).getLast? = some c := by
  induction l with
  | nil => simp at h
  | cons a l ih =>
    cases l with
    | nil =>
      simp at h
      subst h
      simp [List.dropWhile, hc]
    | cons b l =>
      rw [List.getLast?_cons_cons] at h
      by_cases ha : p a
      · simp [List.dropWhile, ha]
        rw [← List.dropWhile]
        exact ih h
      · simp [List.dropWhile, ha]
        exact h

/-- When the last character is not whitespace, trimming only strips the
leading whitespace. -/
theorem jsTrim_of_getLast {l : Str} {c : Char}
    (h : l.getLast? = some c) (hc : jsWs c = false) :
    jsTrim l = l.dropWhile jsWs := by
  unfold jsTrim
  rw [dropWhile_eq_self_of_head, List.reverse_reverse]
  intro a ha
  rw [List.head?_reverse] at ha
  rw [getLast?_dropWhile h hc] at ha
  simp at ha
  subst ha
  exact hc

theorem jsTrim_getLast {l : Str} {c : Char}
    (h : l.getLast? = some c) (hc : jsWs c = false) :
    (jsTrim l).getLast? = some c := by
  rw [jsTrim_of_getLast h hc]
  exact getLast?_dropWhile h hc

theorem jsTrim_ne_nil_of_getLast {l : Str} {c : Char}
    (h : l.getLast? = some c) (hc : jsWs c = false) : jsTrim l ≠ [] := by
  intro hnil
  have h2 := jsTrim_getLast h hc
  rw [hnil] at h2
  simp at h2

theorem jsTrim_eq_self {l : Str}
    (h1 : ∀ a ∈ l.head?, jsWs a = false)
    (h2 : ∀ a ∈ l.getLast?, jsWs a = false) : jsTrim l = l := by
  cases hl : l.getLast? with
  | none =>
    have : l = [] := by
      cases l with
      | nil => rfl
      | cons a l => simp [List.getLast?_eq_getLast] at hl
    subst this; rfl
  | some c =>
    rw [jsTrim_of_getLast hl (h2 c hl)]
    exact dropWhile_eq_self_of_head h1

/-- The trimmed content never ends in a newline character. -/
theorem jsTrim_getLast_ne_newline (l : Str) :
    (jsTrim l).getLast? ≠ some '\n' := by
  intro h
  unfold jsTrim at h
  rw [List.getLast?_reverse] at h
  have := head?_dropWhile_false h
  simp [jsWs] at this

theorem mem_jsTrim {l : Str} {c : Char} (h : c ∈ jsTrim l) : c ∈ l := by
  unfold jsTrim at h
  rw [List.mem_reverse] at h
  have h1 := (List.dropWhile_sublist (l := (List.dropWhile jsWs l).reverse)
    (p := jsWs)).mem h
  rw [List.mem_reverse] at h1
  exact (List.dropWhile_sublist (p := jsWs)).mem h1

/-- Characters of `joinSpace l` are spaces or characters of elements. -/
theorem mem_joinSpace {l : List Str} {c : Char} (h : c ∈ joinSpace l) :
    c = ' ' ∨ ∃ t ∈ l, c ∈ t := by
  induction l with
  | nil => simp [joinSpace] at h
  | cons x xs ih =>
    cases xs with
    | nil =>
      simp [joinSpace] at h
      exact Or.inr ⟨x, by simp, h⟩
    | cons y ys =>
      simp only [joinSpace, List.append_assoc, List.mem_append] at h
      rcases h with h | h
      · exact Or.inr ⟨x, by simp, h⟩
      · rcases h with h | h
        · simp at h
          exact Or.inl h
        · rcases ih h with h1 | ⟨t, ht, hc⟩
          · exact Or.inl h1
          · exact Or.inr ⟨t, by simp [ht], hc⟩

/-- Evaluation of the direct-output path on content that trims to something
nonempty: the trimmed content plus a final newline is appended to the
selected stream. -/
theorem processOutputDirect_spec (c : Str) (isError : Bool) (st : OutState)
    (h : jsTrim c ≠ []) :
    processOutputDirect c isError st =
      if isError then { st with stderr := st.stderr ++ jsTrim c ++ ['\n'] }
      else { st with stdout := st.stdout ++ jsTrim c ++ ['\n'] } := by
  have hc : c ≠ [] := by
    intro hnil
    subst hnil
    exact h rfl
  have hlen : (jsTrim c).length > 0 := List.length_pos.mpr h
  have hlast : (jsTrim c).getLast? ≠ some '\n' := jsTrim_getLast_ne_newline c
  unfold processOutputDirect
  rw [if_neg hc]
  simp only [hlen, hlast, and_self, if_pos, ne_eq, not_false_eq_true, true_and]
  cases isError <;> simp

/-- With `shouldWrite = false` the output function is exactly the direct
write path. -/
theorem processOutput_not_write (c : Str) (isError : Bool) (r : Option Str)
    (st : OutState) :
    processOutput c isError false r st = processOutputDirect c isError st := by
  unfold processOutput processOutputDirect
  simp

/-- C3.  The claim as frozen states that the target file is untouched in the
mismatched direction; in the code the file is still opened with the chosen
mode, so this theorem proves the amended statement: with an stdout operator
and `is_error = true` the content goes to stderr (stdout untouched), with a
stderr operator and `is_error = false` the content goes to stdout (stderr
untouched), and in both cases the file receives no content bytes but is
opened anyway: truncated to empty under a truncate operator, created-if-
absent but content-preserved under an append operator. -/
theorem c3_redirection_routing (c r : Str) (st : OutState) (hc : c ≠ []) :
    (isOutRedir r = true →
      processOutput c true true (some r) st =
        { processOutputDirect c true st with
            file := some (if appendModeB (some r) then st.file.getD [] else []) })
    ∧ (isErrRedir r = true →
      processOutput c false true (some r) st =
        { processOutputDirect c false st with
            file := some (if appendModeB (some r) then st.file.getD [] else []) })
    ∧ (processOutputDirect c true st).stdout = st.stdout
    ∧ (processOutputDirect c false st).stderr = st.stderr := by
  refine ⟨fun hr => ?_, fun hr => ?_, ?_, ?_⟩
  · unfold processOutput
    rw [if_neg hc]
    by_cases hm : appendModeB (some r) <;> simp [hr, hm]
  · have hr2 : isOutRedir r = false := by
      simp only [isErrRedir, Bool.or_eq_true, decide_eq_true_eq] at hr
      rcases hr with h | h <;> subst h <;> decide
    unfold processOutput
    rw [if_neg hc]
    by_cases hm : appendModeB (some r) <;> simp [hr, hr2, hm]
  · unfold processOutputDirect
    rw [if_neg hc]
    simp
  · unfold processOutputDirect
    rw [if_neg hc]
    simp

/-- C3 witness: the amended statement at `content = "x"`, operator `>`,
existing file content `"old"`. -/
theorem c3_redirection_routing_witness :
    processOutput (strl "x") true true (some (strl ">"))
        ⟨[], [], some (strl "old")⟩ =
      { processOutputDirect (strl "x") true ⟨[], [], some (strl "old")⟩ with
          file := some (if appendModeB (some (strl ">"))
            then (OutState.mk [] [] (some (strl "old"))).file.getD [] else []) } :=
  (c3_redirection_routing (strl "x") (strl ">") ⟨[], [], some (strl "old")⟩
    (by decide)).1 (by decide)

/-- C3 counterexample: with operator `>`, `is_error = true` and a file
containing `"old"`, the call truncates the file (to empty), so the file is
not untouched as the claim states. -/
theorem c3_file_touched_cex :
    (processOutput (strl "x") true true (some (strl ">"))
        ⟨[], [], some (strl "old")⟩).file = some []
    ∧ some ([] : Str) ≠ some (strl "old") := by
  constructor
  · decide
  · decide

/-- C5.  The source applies `String.prototype.trim`, which removes leading
as well as trailing whitespace, so this theorem proves the amended
statement: for content trimming to a nonempty string with no redirection,
the emitted stdout text is the content with leading and trailing whitespace
removed followed by exactly one newline (the trimmed content never ends in a
newline), stderr and the file are untouched; and `echo` of a single
nonempty argument without surrounding whitespace emits exactly that argument
plus one newline. -/
theorem c5_trim_newline (c : Str) (st : OutState) (h : jsTrim c ≠ []) :
    (processOutput c false false none st).stdout
        = st.stdout ++ jsTrim c ++ ['\n']
    ∧ (processOutput c false false none st).stderr = st.stderr
    ∧ (processOutput c false false none st).file = st.file
    ∧ (jsTrim c).getLast? ≠ some '\n'
    ∧ (∀ X : Str, X ≠ [] → jsTrim X = X →
        (handleEcho [X] [] none st).stdout = st.stdout ++ X ++ ['\n']) := by
  rw [processOutput_not_write, processOutputDirect_spec c false st h]
  refine ⟨by simp, by simp, by simp, jsTrim_getLast_ne_newline c, ?_⟩
  intro X hX htrim
  have hX2 : jsTrim X ≠ [] := by rw [htrim]; exact hX
  have he : handleEcho [X] [] none st = processOutput X false false none st :=
    rfl
  rw [he, processOutput_not_write, processOutputDirect_spec X false st hX2,
    htrim]
  simp

/-- C5 witness: content `"hi"` with no redirection on the empty state. -/
theorem c5_trim_newline_witness :
    (processOutput (strl "hi") false false none ⟨[], [], none⟩).stdout
      = ([] : Str) ++ jsTrim (strl "hi") ++ ['\n'] :=
  (c5_trim_newline (strl "hi") ⟨[], [], none⟩ (by decide)).1

/-- C5 counterexample: content `" a"` (leading space).  The claim predicts
`" a\n"` (only trailing whitespace removed); the code emits `"a\n"`. -/
theorem c5_leading_trim_cex :
    (processOutput (strl " a") false false none ⟨[], [], none⟩).stdout
      = strl "a\n"
    ∧ (processOutput (strl " a") false false none ⟨[], [], none⟩).stdout
      ≠ strl " a\n" := by
  constructor
  · decide
  · decide

/-- C8.  The source emits the message with `isError: true`, so it goes to
stderr, not stdout as the claim states; this is the amended statement: for
every nonempty name that is not a shell command, with `PATH` missing or
empty, `type name` writes `"<name>: please set PATH\n"` to stderr and leaves
stdout and the file untouched. -/
theorem c8_type_empty_path (accessX : Str → Bool) (pv : Option Str)
    (cmd : Str) (st : OutState)
    (hne : cmd ≠ []) (hsh : isShellCommand cmd = false)
    (hhead : ∀ a ∈ cmd.head?, jsWs a = false)
    (hpv : pv = none ∨ pv = some []) :
    (handleType accessX pv cmd [] none st).stderr
        = st.stderr ++ cmd ++ strl ": please set PATH" ++ ['\n']
    ∧ (handleType accessX pv cmd [] none st).stdout = st.stdout
    ∧ (handleType accessX pv cmd [] none st).file = st.file := by
  have hmsg : jsTrim (cmd ++ strl ": please set PATH")
      = cmd ++ strl ": please set PATH" := by
    apply jsTrim_eq_self
    · intro a ha
      rw [List.head?_append_of_ne_nil cmd hne] at ha
      exact hhead a ha
    · intro a ha
      rw [List.getLast?_append_of_ne_nil cmd (by decide)] at ha
      have hha : 'H' = a := by
        rw [show (strl ": please set PATH").getLast? = some 'H' by decide]
          at ha
        simpa using ha
      subst hha
      decide
  have hmsgne : jsTrim (cmd ++ strl ": please set PATH") ≠ [] := by
    rw [hmsg]
    intro hx
    exact hne (by cases cmd <;> simp_all)
  have hout : handleType accessX pv cmd [] none st
      = processOutput (cmd ++ strl ": please set PATH") true false none st := by
    unfold handleType
    rw [if_neg hne]
    simp only [hsh, Bool.false_eq_true, if_false]
    rcases hpv with h | h <;> subst h <;> simp
  rw [hout, processOutput_not_write,
    processOutputDirect_spec _ _ _ hmsgne, hmsg]
  simp

/-- C8 witness: `type foo` with `PATH` unset on the empty state. -/
theorem c8_type_empty_path_witness :
    (handleType (fun _ => false) none (strl "foo") [] none
        ⟨[], [], none⟩).stderr
      = ([] : Str) ++ strl "foo" ++ strl ": please set PATH" ++ ['\n'] :=
  (c8_type_empty_path (fun _ => false) none (strl "foo") ⟨[], [], none⟩
    (by decide) (by decide) (by decide) (Or.inl rfl)).1

/-- C8 counterexample: `type foo` with `PATH` unset writes nothing to
stdout; the claimed stdout line appears on stderr instead. -/
theorem c8_stdout_cex :
    (handleType (fun _ => false) none (strl "foo") [] none
        ⟨[], [], none⟩).stdout = []
    ∧ (handleType (fun _ => false) none (strl "foo") [] none
        ⟨[], [], none⟩).stdout ≠ strl "foo: please set PATH\n"
    ∧ (handleType (fun _ => false) none (strl "foo") [] none
        ⟨[], [], none⟩).stderr = strl "foo: please set PATH\n" := by
  refine ⟨?_, ?_, ?_⟩ <;> decide

/-! ### Tokenizer theorems -/

/-- C4.  Inside single quotes a backslash is appended literally (no escape
state is entered); in escape state inside double quotes, a backslash-escaped
`"`, `\`, `$` or backtick appends only that character, while any other
escaped character appends a backslash and then the character. -/
theorem c4_escape_semantics (homedir : Str) (s : TokState) (c : Char)
    (hs : s.esc = false) :
    (s.inSingle = true → tokStep homedir s '\\' = updateToken s ['\\'])
    ∧ (∀ s2 : TokState, s2.esc = true → s2.inDouble = true →
        tokStep homedir s2 c =
          { updateToken s2
              (if c = '"' ∨ c = '\\' ∨ c = '$' ∨ c = btick
               then [c] else ['\\', c]) with
            esc := false }) := by
  constructor
  · intro hq
    unfold tokStep
    simp [hs, hq]
  · intro s2 h1 h2
    unfold tokStep
    rw [h1, h2]
    by_cases hc : c = '"' ∨ c = '\\' ∨ c = '$' ∨ c = btick <;> simp [hc]

/-- C4 witness: a backslash in single-quote state, and an escaped `x` in
double-quote escape state. -/
theorem c4_escape_semantics_witness :
    tokStep [] ⟨true, false, false, [], []⟩ '\\'
      = updateToken ⟨true, false, false, [], []⟩ ['\\']
    ∧ tokStep [] ⟨false, true, true, [], []⟩ 'x'
      = { updateToken ⟨false, true, true, [], []⟩
            (if 'x' = '"' ∨ 'x' = '\\' ∨ 'x' = '$' ∨ 'x' = btick
             then ['x'] else ['\\', 'x']) with
          esc := false } :=
  ⟨(c4_escape_semantics [] ⟨true, false, false, [], []⟩ 'x' rfl).1 rfl,
   (c4_escape_semantics [] ⟨true, false, false, [], []⟩ 'x' rfl).2
     ⟨false, true, true, [], []⟩ rfl rfl⟩

/-- Each tokenizer step either leaves the emitted tokens unchanged or
flushes the (nonempty) current accumulator as one new token. -/
theorem tokStep_tokens (h : Str) (s : TokState) (c : Char) :
    (tokStep h s c).tokens = s.tokens
    ∨ ((tokStep h s c).tokens = s.tokens ++ [s.current]
        ∧ s.current ≠ []) := by
  unfold tokStep updateToken
  split_ifs <;> simp_all [List.length_pos]

/-- All tokens accumulated by the tokenizer loop are nonempty. -/
theorem foldl_tokStep_nonempty (h : Str) (line : Str) (s : TokState)
    (hs : ∀ t ∈ s.tokens, t ≠ []) :
    ∀ t ∈ (line.foldl (tokStep h) s).tokens, t ≠ [] := by
  induction line generalizing s with
  | nil => exact hs
  | cons c cs ih =>
    intro t ht
    refine ih (tokStep h s c) ?_ t ht
    intro u hu
    rcases tokStep_tokens h s c with h1 | ⟨h1, h2⟩
    · rw [h1] at hu
      exact hs u hu
    · rw [h1] at hu
      rcases List.mem_append.mp hu with h3 | h3
      · exact hs u h3
      · simp at h3
        rw [h3]
        exact h2

/-- C9.  Every token produced by the tokenizer is nonempty; in particular a
quoted empty string contributes no token, so `echo '' a` tokenizes to
`["echo", "a"]`. -/
theorem c9_tokens_nonempty :
    (∀ (homedir line : Str), ∀ t ∈ handleFormatting homedir line, t ≠ [])
    ∧ handleFormatting [] (strl "echo " ++ [squote, squote] ++ strl " a")
        = [strl "echo", strl "a"] := by
  constructor
  · intro homedir line t ht
    unfold handleFormatting at ht
    have hbase := foldl_tokStep_nonempty homedir line
      ⟨false, false, false, [], []⟩ (by intro u hu; simp at hu)
    by_cases hcur :
        (line.foldl (tokStep homedir) ⟨false, false, false, [], []⟩).current.length > 0
    · rw [if_pos hcur] at ht
      rcases List.mem_append.mp ht with h1 | h1
      · exact hbase t h1
      · simp at h1
        subst h1
        simpa using List.length_pos.mp hcur
    · rw [if_neg hcur] at ht
      exact hbase t ht
  · decide

/-- C9 witness: the token `"a"` of the line `"a"` is nonempty. -/
theorem c9_tokens_nonempty_witness :
    strl "a" ∈ handleFormatting [] (strl "a") ∧ strl "a" ≠ [] :=
  ⟨by decide, c9_tokens_nonempty.1 [] (strl "a") (strl "a") (by decide)⟩

/-! ### Parser and dispatcher theorems -/

theorem find?_decomp {p : Str → Bool} :
    ∀ {l : List Str} {r : Str}, l.find? p = some r →
      ∃ pre post, l = pre ++ r :: post
        ∧ (∀ t ∈ pre, p t = false) ∧ p r = true := by
  intro l
  induction l with
  | nil => intro r h; simp at h
  | cons a l ih =>
    intro r h
    by_cases ha : p a
    · rw [List.find?_cons_of_pos _ ha] at h
      simp at h
      subst h
      exact ⟨[], l, rfl, by simp, ha⟩
    · rw [List.find?_cons_of_neg _ ha] at h
      obtain ⟨pre, post, heq, hpre, hr⟩ := ih h
      refine ⟨a :: pre, post, by simp [heq], ?_, hr⟩
      intro t ht
      rcases List.mem_cons.mp ht with h1 | h1
      · subst h1; simpa using ha
      · exact hpre t h1

theorem jsIndexOf_append_first {r : Str} :
    ∀ (pre post : List Str), (∀ t ∈ pre, t ≠ r) →
      jsIndexOf (pre ++ r :: post) r = pre.length := by
  intro pre
  induction pre with
  | nil => intro post _; simp [jsIndexOf]
  | cons a pre ih =>
    intro post h
    have ha : a ≠ r := h a (by simp)
    simp only [List.cons_append, jsIndexOf, ha, if_false, List.length_cons]
    rw [show pre.append (r :: post) = pre ++ r :: post from rfl,
      ih post (fun t ht => h t (by simp [ht]))]

theorem extractRedirection_none (args : List Str)
    (h : getFirstCommonElementInArray args redirectionOptions = none) :
    extractRedirection args = (args, [], none) := by
  unfold extractRedirection
  rw [h]

/-- C2.  The first half of the claim holds: the extraction removes exactly
the leftmost redirection operator of the argument list together with the
token immediately after it, recording them.  The second half fails (see the
counterexample): there is no syntax error; the amended statement is that
any later operator tokens simply remain in the stage's remaining arguments
and are passed through as ordinary arguments. -/
theorem c2_redirection_extraction (args : List Str) (r : Str)
    (hr : getFirstCommonElementInArray args redirectionOptions = some r) :
    ∃ pre post, args = pre ++ r :: post
      ∧ (∀ t ∈ pre, redirectionOptions.contains t = false)
      ∧ redirectionOptions.contains r = true
      ∧ extractRedirection args
          = (pre ++ post.drop 1, r :: post.take 1, some r) := by
  obtain ⟨pre, post, heq, hpre, hpr⟩ :=
    find?_decomp (p := fun e => redirectionOptions.contains e) hr
  refine ⟨pre, post, heq, hpre, hpr, ?_⟩
  have hne : ∀ t ∈ pre, t ≠ r := by
    intro t ht hteq
    have := hpre t ht
    rw [hteq] at this
    rw [this] at hpr
    exact Bool.false_ne_true hpr
  have hidx : jsIndexOf args r = pre.length := by
    rw [heq]
    exact jsIndexOf_append_first pre post hne
  have hstep : extractRedirection args
      = (args.take (jsIndexOf args r) ++ args.drop (jsIndexOf args r + 2),
         (args.drop (jsIndexOf args r)).take 2, some r) := by
    unfold extractRedirection
    rw [hr]
  rw [hstep, hidx, heq]
  have h1 : (pre ++ r :: post).take pre.length = pre := List.take_left pre _
  have h2 : (pre ++ r :: post).drop (pre.length + 2) = post.drop 1 := by
    rw [← List.drop_drop, List.drop_left]
    rfl
  have h3 : ((pre ++ r :: post).drop pre.length).take 2 = r :: post.take 1 := by
    rw [List.drop_left]
    rfl
  rw [h1, h2, h3]

/-- C2 witness: extraction on the argument list `["a", ">", "f"]`. -/
theorem c2_redirection_extraction_witness :
    ∃ pre post,
      [strl "a", strl ">", strl "f"] = pre ++ strl ">" :: post
      ∧ (∀ t ∈ pre, redirectionOptions.contains t = false)
      ∧ redirectionOptions.contains (strl ">") = true
      ∧ extractRedirection [strl "a", strl ">", strl "f"]
          = (pre ++ post.drop 1, strl ">" :: post.take 1, some (strl ">")) :=
  c2_redirection_extraction [strl "a", strl ">", strl "f"] (strl ">")
    (by decide)

/-- C2 counterexample: on `echo a > f >> g` the extraction removes only
`> f`; the later operator `>>` remains in the arguments and no syntax error
is raised — the command runs and `echo` receives `a >> g`, which ends up in
the redirection target.  This refutes the claim that a remaining operator
token makes the line a syntax error instead of being passed through. -/
theorem c2_no_syntax_error_cex :
    (extractRedirection [strl "a", strl ">", strl "f", strl ">>", strl "g"]).1
      = [strl "a", strl ">>", strl "g"]
    ∧ redirectionOptions.contains (strl ">>") = true
    ∧ processLine echoOnlyDispatch (fun _ _ _ _ s => s) (fun _ => false) []
        [strl "echo", strl "a", strl ">", strl "f", strl ">>", strl "g"]
        false ⟨[], [], none⟩
      = ⟨[], [], some (strl "a >> g\n")⟩ := by
  refine ⟨?_, ?_, ?_⟩ <;> decide

/-- C1.  The claim's message `"<line>: command not found"` is only produced
when the argument list (after redirection extraction) is empty, and `<line>`
is the token list joined by spaces; when arguments remain, the code instead
writes `"<head>: <first-arg> not found"`.  This is the amended statement for
a redirection-free unknown single-stage line: in both cases exactly one
newline-terminated line (containing no other newline) is appended to stderr,
and stdout and the file are untouched. -/
theorem c1_unknown_command
    (builtinEff spawnEff :
      Str → List Str → List Str → Option Str → OutState → OutState)
    (accessX : Str → Bool) (pathVar : Str) (root : Str) (args0 : List Str)
    (st : OutState)
    (hroot : root ≠ [])
    (hsh : isShellCommand root = false)
    (hex : isExecutable accessX pathVar root = false)
    (hred : getFirstCommonElementInArray args0 redirectionOptions = none)
    (hnl : ∀ t ∈ root :: args0, '\n' ∉ t) :
    (args0 = [] →
      processLine builtinEff spawnEff accessX pathVar (root :: args0) false st
        = { st with stderr := st.stderr
            ++ jsTrim (joinSpace (root :: args0) ++ strl ": command not found")
            ++ ['\n'] }
      ∧ '\n' ∉ jsTrim (joinSpace (root :: args0) ++ strl ": command not found"))
    ∧ (∀ a rest, args0 = a :: rest →
      processLine builtinEff spawnEff accessX pathVar (root :: args0) false st
        = { st with stderr := st.stderr
            ++ jsTrim (root ++ strl ": " ++ a ++ strl " not found") ++ ['\n'] }
      ∧ '\n' ∉ jsTrim (root ++ strl ": " ++ a ++ strl " not found")) := by
  have hout : ∀ (X suf : Str), suf.getLast? = some 'd' → suf ≠ [] →
      processOutput (X ++ suf) true false none st
        = { st with stderr := st.stderr ++ jsTrim (X ++ suf) ++ ['\n'] } := by
    intro X suf hlast hne
    have hlast2 : (X ++ suf).getLast? = some 'd' := by
      rw [List.getLast?_append_of_ne_nil X hne, hlast]
    have htrim : jsTrim (X ++ suf) ≠ [] :=
      jsTrim_ne_nil_of_getLast hlast2 (by decide)
    rw [processOutput_not_write, processOutputDirect_spec _ _ _ htrim]
    simp
  constructor
  · intro hargs
    subst hargs
    have hmem : '\n' ∉ jsTrim (joinSpace (root :: []) ++ strl ": command not found") := by
      intro hm
      have hm2 := mem_jsTrim hm
      rcases List.mem_append.mp hm2 with h1 | h1
      · rcases mem_joinSpace h1 with h2 | ⟨t, ht, hc⟩
        · simp at h2
        · exact hnl t ht hc
      · simp [strl] at h1
    refine ⟨?_, hmem⟩
    simp only [processLine, extractRedirection_none [] hred]
    simp only [hsh, hex, Bool.false_eq_true, if_false, List.length_nil,
      gt_iff_lt, Nat.lt_irrefl, and_false, not_false_eq_true, and_true,
      ne_eq, hroot, if_true]
    exact hout _ _ (by decide) (by decide)
  · intro a rest hargs
    subst hargs
    have hmem : '\n' ∉ jsTrim (root ++ strl ": " ++ a ++ strl " not found") := by
      intro hm
      have hm2 := mem_jsTrim hm
      simp only [List.append_assoc, List.mem_append] at hm2
      rcases hm2 with h1 | h1 | h1 | h1
      · exact hnl root (by simp) h1
      · simp [strl] at h1
      · exact hnl a (by simp) h1
      · simp [strl] at h1
    refine ⟨?_, hmem⟩
    simp only [processLine, extractRedirection_none (a :: rest) hred]
    simp only [hsh, hex, Bool.false_eq_true, if_false, List.length_cons,
      gt_iff_lt, Nat.succ_pos, and_true, ne_eq, hroot, not_false_eq_true,
      if_true, List.headI]
    exact hout _ _ (by decide) (by decide)

/-- C1 witness: the unknown command `foo bar` on the empty state. -/
theorem c1_unknown_command_witness :
    processLine (fun _ _ _ _ s => s) (fun _ _ _ _ s => s) (fun _ => false) []
        [strl "foo", strl "bar"] false ⟨[], [], none⟩
      = { OutState.mk [] [] none with
          stderr := ([] : Str)
            ++ jsTrim (strl "foo" ++ strl ": " ++ strl "bar" ++ strl " not found")
            ++ ['\n'] } :=
  ((c1_unknown_command (fun _ _ _ _ s => s) (fun _ _ _ _ s => s)
      (fun _ => false) [] (strl "foo") [strl "bar"] ⟨[], [], none⟩
      (by decide) (by decide) (by decide) (by decide) (by decide)).2
    (strl "bar") [] rfl).1

/-- C1 counterexample: for the unknown command `foo bar` the code writes
`"foo: bar not found"` to stderr, not `"foo bar: command not found"` as the
claim states. -/
theorem c1_message_cex :
    (processLine (fun _ _ _ _ s => s) (fun _ _ _ _ s => s) (fun _ => false)
        [] [strl "foo", strl "bar"] false ⟨[], [], none⟩).stderr
      = strl "foo: bar not found\n"
    ∧ (processLine (fun _ _ _ _ s => s) (fun _ _ _ _ s => s) (fun _ => false)
        [] [strl "foo", strl "bar"] false ⟨[], [], none⟩).stderr
      ≠ strl "foo bar: command not found\n" := by
  constructor <;> decide

/-! ### History store theorems -/

/-- `Map.set` with a fresh key appends the entry. -/
theorem mapSet_fresh {m : List (Nat × Str)} {k : Nat} (v : Str)
    (h : ∀ p ∈ m, p.1 ≠ k) : mapSet m k v = m ++ [(k, v)] := by
  unfold mapSet
  rw [if_neg]
  simp only [List.any_eq_true, decide_eq_true_eq, not_exists]
  intro p hp
  exact h p hp.1 hp.2

/-- Under the invariant, `size + 1` is a fresh key. -/
theorem fresh_key {m : List (Nat × Str)}
    (h : m.map Prod.fst = List.range' 1 m.length) :
    ∀ p ∈ m, p.1 ≠ m.length + 1 := by
  intro p hp heq
  have : p.1 ∈ m.map Prod.fst := List.mem_map_of_mem Prod.fst hp
  rw [h, List.mem_range'_1] at this
  omega

theorem historyInv_promptAppend (line : Str) (st : HistoryState)
    (h : historyInv st) :
    historyInv (promptAppend line st)
    ∧ (promptAppend line st).entries
        = st.entries ++ [(st.entries.length + 1, line)] := by
  have hset := mapSet_fresh (m := st.entries) line (fresh_key h.1)
  unfold promptAppend
  rw [hset]
  refine ⟨⟨?_, ?_⟩, rfl⟩
  · simp only [List.map_append, List.length_append, h.1, List.map_cons,
      List.map_nil, List.length_cons, List.length_nil]
    rw [show st.entries.length + (0 + 1) = st.entries.length + 1 by omega,
      List.range'_1_concat]
    simp [Nat.add_comm]
  · have := h.2
    simp only [List.length_append, List.length_cons, List.length_nil]
    omega

theorem historyRead_fold (fileLines : List Str) :
    ∀ (m : List (Nat × Str)), m.map Prod.fst = List.range' 1 m.length →
      let m2 := fileLines.foldl
        (fun m l =>
          if (jsTrim l).length < 1 then m
          else mapSet m (m.length + 1) (jsTrim l)) m
      m2.map Prod.fst = List.range' 1 m2.length
      ∧ ∃ suff, m2 = m ++ suff := by
  induction fileLines with
  | nil => intro m hm; exact ⟨hm, [], by simp⟩
  | cons l rest ih =>
    intro m hm
    simp only [List.foldl_cons]
    by_cases hl : (jsTrim l).length < 1
    · rw [if_pos hl]
      exact ih m hm
    · rw [if_neg hl]
      have hset := mapSet_fresh (m := m) (jsTrim l) (fresh_key hm)
      rw [hset]
      have hm2 : (m ++ [(m.length + 1, jsTrim l)]).map Prod.fst
          = List.range' 1 (m ++ [(m.length + 1, jsTrim l)]).length := by
        simp only [List.map_append, List.length_append, hm, List.map_cons,
          List.map_nil, List.length_cons, List.length_nil]
        rw [show m.length + (0 + 1) = m.length + 1 by omega,
          List.range'_1_concat]
        simp [Nat.add_comm]
      obtain ⟨h1, suff, h2⟩ := ih _ hm2
      exact ⟨h1, [(m.length + 1, jsTrim l)] ++ suff, by
        rw [h2, List.append_assoc]⟩

theorem historyInv_readLines (fileLines : List Str) (st : HistoryState)
    (h : historyInv st) :
    historyInv (historyReadLines fileLines st)
    ∧ ∃ suff, (historyReadLines fileLines st).entries
        = st.entries ++ suff := by
  obtain ⟨h1, suff, h2⟩ := historyRead_fold fileLines st.entries h.1
  unfold historyReadLines
  refine ⟨⟨h1, ?_⟩, suff, h2⟩
  simp only [h2, List.length_append]
  have := h.2
  omega

theorem historyInv_appendFlush (st : HistoryState) (h : historyInv st) :
    historyInv (historyAppendFlush st)
    ∧ (historyAppendFlush st).entries = st.entries
    ∧ (historyAppendFlush st).appendCursor = st.entries.length := by
  have hc := h.2
  have hcur : (historyAppendFlush st).appendCursor = st.entries.length := by
    unfold historyAppendFlush
    simp only [List.length_take, List.length_drop, List.length_map]
    omega
  have hent : (historyAppendFlush st).entries = st.entries := rfl
  refine ⟨⟨?_, ?_⟩, hent, hcur⟩
  · rw [hent]
    exact h.1
  · rw [hcur, hent]

/-- C7.  In every reachable session state the history keys are exactly
`1..len` in order and the append cursor is at most the store size; each
store-mutating operation preserves this, only ever appending entries
(`history -a` leaves the entries unchanged and moves the cursor to the store
size). -/
theorem c7_history_invariant :
    (∀ st, ReachableHistory st → historyInv st)
    ∧ (∀ st line, historyInv st →
        historyInv (promptAppend line st)
        ∧ (promptAppend line st).entries
            = st.entries ++ [(st.entries.length + 1, line)])
    ∧ (∀ st fileLines, historyInv st →
        historyInv (historyReadLines fileLines st)
        ∧ ∃ suff, (historyReadLines fileLines st).entries
            = st.entries ++ suff)
    ∧ (∀ st, historyInv st →
        historyInv (historyAppendFlush st)
        ∧ (historyAppendFlush st).entries = st.entries) := by
  refine ⟨?_, fun st line h => historyInv_promptAppend line st h,
    fun st fileLines h => historyInv_readLines fileLines st h,
    fun st h => ⟨(historyInv_appendFlush st h).1,
      (historyInv_appendFlush st h).2.1⟩⟩
  intro st hreach
  induction hreach with
  | init => exact ⟨rfl, by simp⟩
  | prompt line h ih => exact (historyInv_promptAppend line _ ih).1
  | readFile fileLines h ih => exact (historyInv_readLines fileLines _ ih).1
  | appendFlush h ih => exact (historyInv_appendFlush _ ih).1

/-- C7 witness: the invariant at the initial state and after appending one
prompted line to it. -/
theorem c7_history_invariant_witness :
    historyInv ⟨[], 0⟩ ∧ historyInv (promptAppend (strl "a") ⟨[], 0⟩) :=
  ⟨c7_history_invariant.1 ⟨[], 0⟩ ReachableHistory.init,
   (c7_history_invariant.2.1 ⟨[], 0⟩ (strl "a")
     (c7_history_invariant.1 ⟨[], 0⟩ ReachableHistory.init)).1⟩

/-! ### Trie theorems -/

/-- A structural induction principle for `ChildList` alone (the automatically
generated recursor is the mutual one). -/
theorem childListInd (motive : ChildList → Prop) (nil : motive .nil)
    (cons : ∀ (c : Char) (n : TrieNode) (rest : ChildList),
      motive rest → motive (.cons c n rest)) :
    ∀ cs, motive cs
  | .nil => nil
  | .cons c n rest => cons c n rest (childListInd motive nil cons rest)

theorem getNode_setNode_same (cs : ChildList) (c : Char) (n : TrieNode) :
    (cs.setNode c n).getNode c = some n := by
  induction cs using childListInd with
  | nil => simp [ChildList.setNode, ChildList.getNode]
  | cons k m rest ih =>
    by_cases hk : k = c
    · subst hk
      simp [ChildList.setNode, ChildList.getNode]
    · simp [ChildList.setNode, ChildList.getNode, hk, ih]

theorem getNode_setNode_ne (cs : ChildList) (c d : Char) (n : TrieNode)
    (h : c ≠ d) : (cs.setNode c n).getNode d = cs.getNode d := by
  induction cs using childListInd with
  | nil => simp [ChildList.setNode, ChildList.getNode, h]
  | cons k m rest ih =>
    by_cases hk : k = c
    · subst hk
      simp [ChildList.setNode, ChildList.getNode, h]
    · simp only [ChildList.setNode, hk, if_false, ChildList.getNode]
      by_cases hkd : k = d
      · simp [hkd]
      · simp [hkd, ih]

theorem getNode_some_hasKey {cs : ChildList} {c : Char} {n : TrieNode}
    (h : cs.getNode c = some n) : cs.hasKey c = true := by
  induction cs using childListInd with
  | nil => simp [ChildList.getNode] at h
  | cons k m rest ih =>
    simp only [ChildList.getNode] at h
    simp only [ChildList.hasKey, Bool.or_eq_true, decide_eq_true_eq]
    by_cases hk : k = c
    · exact Or.inl hk
    · rw [if_neg hk] at h
      exact Or.inr (ih h)

theorem containsW_mk_nil (e : Bool) (cs : ChildList) :
    (TrieNode.mk e cs).containsW [] = e := rfl

theorem containsW_mk_cons (e : Bool) (cs : ChildList) (c : Char) (w : Str) :
    (TrieNode.mk e cs).containsW (c :: w)
      = match cs.getNode c with
        | some n => n.containsW w
        | none => false := by
  cases hg : cs.getNode c <;>
    simp [TrieNode.containsW, TrieNode.search, TrieNode.children, hg]

theorem containsW_empty (w : Str) :
    (TrieNode.mk false .nil).containsW w = false := by
  cases w with
  | nil => rfl
  | cons c w => rw [containsW_mk_cons]; rfl

theorem containsW_insert_self (t : TrieNode) (w : Str) :
    (t.insert w).containsW w = true := by
  induction w generalizing t with
  | nil =>
    cases t with
    | mk e cs => simp [TrieNode.insert, containsW_mk_nil]
  | cons c w ih =>
    cases t with
    | mk e cs =>
      simp only [TrieNode.insert]
      rw [containsW_mk_cons, getNode_setNode_same]
      exact ih _

theorem containsW_insert_ne (t : TrieNode) (v w : Str) (h : w ≠ v) :
    (t.insert v).containsW w = t.containsW w := by
  induction w generalizing t v with
  | nil =>
    cases v with
    | nil => exact absurd rfl h
    | cons c v' =>
      cases t with
      | mk e cs => simp [TrieNode.insert, containsW_mk_nil]
  | cons c w' ih =>
    cases v with
    | nil =>
      cases t with
      | mk e cs =>
        simp only [TrieNode.insert]
        rw [containsW_mk_cons, containsW_mk_cons]
    | cons d v' =>
      cases t with
      | mk e cs =>
        simp only [TrieNode.insert]
        rw [containsW_mk_cons, containsW_mk_cons]
        by_cases hdc : d = c
        · subst hdc
          rw [getNode_setNode_same]
          have hwv : w' ≠ v' := fun hh => h (by rw [hh])
          cases hg : cs.getNode d with
          | some n => simp only [ih n v' hwv]
          | none => simp only [ih _ v' hwv, containsW_empty]
        · rw [getNode_setNode_ne cs d c _ hdc]

theorem containsW_foldl (ws : List Str) :
    ∀ (t : TrieNode) (w : Str),
      (ws.foldl TrieNode.insert t).containsW w = true
        ↔ w ∈ ws ∨ t.containsW w = true := by
  induction ws with
  | nil => intro t w; simp
  | cons v ws ih =>
    intro t w
    simp only [List.foldl_cons, List.mem_cons]
    rw [ih]
    by_cases hwv : w = v
    · subst hwv
      simp [containsW_insert_self]
    · rw [containsW_insert_ne t v w hwv]
      simp [hwv]

theorem search_append (p w : Str) : ∀ t : TrieNode,
    t.search (p ++ w) = match t.search p with
      | none => none
      | some n => n.search w := by
  induction p with
  | nil => intro t; rfl
  | cons c p ih =>
    intro t
    show (match t.children.getNode c with
        | none => none
        | some n => n.search (p ++ w))
      = match (match t.children.getNode c with
          | none => none
          | some n => n.search p) with
        | none => none
        | some n => n.search w
    cases t.children.getNode c with
    | none => rfl
    | some n => exact ih n

theorem containsW_append_search (t : TrieNode) (p w : Str) :
    t.containsW (p ++ w) = match t.search p with
      | none => false
      | some n => n.containsW w := by
  unfold TrieNode.containsW
  rw [search_append p w t]
  cases t.search p <;> rfl

theorem wf_children {e : Bool} {cs : ChildList}
    (h : TrieNode.WF (.mk e cs)) : cs.WFC := by
  cases h
  assumption

theorem wfc_parts {c : Char} {n : TrieNode} {rest : ChildList}
    (h : ChildList.WFC (.cons c n rest)) :
    n.WF ∧ rest.WFC ∧ rest.hasKey c = false := by
  cases h with
  | cons _ _ _ h1 h2 h3 => exact ⟨h1, h2, h3⟩

theorem wf_getNode : ∀ {cs : ChildList}, cs.WFC →
    ∀ {c : Char} {n : TrieNode}, cs.getNode c = some n → n.WF := by
  intro cs
  induction cs using childListInd with
  | nil => intro _ c n h; simp [ChildList.getNode] at h
  | cons k m rest ih =>
    intro hcs c n h
    obtain ⟨h1, h2, _⟩ := wfc_parts hcs
    simp only [ChildList.getNode] at h
    by_cases hk : k = c
    · rw [if_pos hk] at h
      injection h with h
      subst h
      exact h1
    · rw [if_neg hk] at h
      exact ih h2 h

theorem hasKey_setNode (cs : ChildList) (c d : Char) (n : TrieNode) :
    (cs.setNode c n).hasKey d = (decide (c = d) || cs.hasKey d) := by
  induction cs using childListInd with
  | nil => simp [ChildList.setNode, ChildList.hasKey]
  | cons k m rest ih =>
    by_cases hk : k = c
    · subst hk
      simp [ChildList.setNode, ChildList.hasKey]
    · simp only [ChildList.setNode, hk, if_false, ChildList.hasKey, ih]
      cases hkd : decide (k = d) <;> cases hcd : decide (c = d) <;> simp_all

theorem wfc_setNode : ∀ {cs : ChildList}, cs.WFC →
    ∀ {c : Char} {n : TrieNode}, n.WF → (cs.setNode c n).WFC := by
  intro cs
  induction cs using childListInd with
  | nil =>
    intro _ c n hn
    exact ChildList.WFC.cons c n .nil hn ChildList.WFC.nil rfl
  | cons k m rest ih =>
    intro hcs c n hn
    obtain ⟨h1, h2, h3⟩ := wfc_parts hcs
    by_cases hk : k = c
    · subst hk
      simp only [ChildList.setNode, if_pos rfl]
      exact ChildList.WFC.cons k n rest hn h2 h3
    · simp only [ChildList.setNode, hk, if_false]
      refine ChildList.WFC.cons k m (rest.setNode c n) h1 (ih h2 hn) ?_
      rw [hasKey_setNode, h3]
      simp only [Bool.or_false, decide_eq_false_iff_not]
      exact fun hh => hk hh.symm

theorem wf_insert : ∀ (w : Str) {t : TrieNode}, t.WF → (t.insert w).WF := by
  intro w
  induction w with
  | nil =>
    intro t h
    cases t with
    | mk e cs => exact TrieNode.WF.mk true cs (wf_children h)
  | cons c w ih =>
    intro t h
    cases t with
    | mk e cs =>
      have hcs := wf_children h
      simp only [TrieNode.insert]
      refine TrieNode.WF.mk e _ (wfc_setNode hcs (ih ?_))
      cases hg : cs.getNode c with
      | some n => exact wf_getNode hcs hg
      | none => exact TrieNode.WF.mk false .nil ChildList.WFC.nil

theorem wf_fromWords (ws : List Str) : (Trie.fromWords ws).WF := by
  unfold Trie.fromWords
  have : ∀ t : TrieNode, t.WF → (ws.foldl TrieNode.insert t).WF := by
    induction ws with
    | nil => exact fun t h => h
    | cons v ws ih => exact fun t h => ih _ (wf_insert v h)
  exact this _ (TrieNode.WF.mk false .nil ChildList.WFC.nil)

theorem wf_search : ∀ (p : Str) {t : TrieNode}, t.WF →
    ∀ {n : TrieNode}, t.search p = some n → n.WF := by
  intro p
  induction p with
  | nil =>
    intro t ht n h
    injection h with h
    subst h
    exact ht
  | cons c p ih =>
    intro t ht n h
    cases t with
    | mk e cs =>
      have hcs := wf_children ht
      simp only [TrieNode.search, TrieNode.children] at h
      cases hg : cs.getNode c with
      | none => rw [hg] at h; simp at h
      | some m =>
        rw [hg] at h
        exact ih (wf_getNode hcs hg) h

mutual
theorem collect_mem : ∀ (t : TrieNode) (pre : Str), t.WF → ∀ x : Str,
    (x ∈ t.collect pre ↔ ∃ w, x = pre ++ w ∧ t.containsW w = true)
  | .mk e cs, pre, hwf, x => by
    have hcs : cs.WFC := wf_children hwf
    rw [show (TrieNode.mk e cs).collect pre
        = (if e then [pre] else []) ++ ChildList.collectAll cs pre from rfl]
    rw [List.mem_append, collectAll_mem cs pre hcs x]
    constructor
    · rintro (h1 | ⟨c, n2, w, hget, hx, hc⟩)
      · by_cases he : e = true
        · rw [if_pos he] at h1
          simp at h1
          subst h1
          exact ⟨[], by simp, by rw [containsW_mk_nil]; exact he⟩
        · rw [if_neg he] at h1
          simp at h1
      · refine ⟨c :: w, hx, ?_⟩
        rw [containsW_mk_cons, hget]
        exact hc
    · rintro ⟨w, hx, hc⟩
      cases w with
      | nil =>
        rw [containsW_mk_nil] at hc
        left
        subst hx
        simp [hc]
      | cons c w' =>
        rw [containsW_mk_cons] at hc
        cases hg : cs.getNode c with
        | none => rw [hg] at hc; simp at hc
        | some n2 =>
          rw [hg] at hc
          exact Or.inr ⟨c, n2, w', hg, hx, hc⟩
theorem collectAll_mem : ∀ (cs : ChildList) (pre : Str), cs.WFC →
    ∀ x : Str,
    (x ∈ cs.collectAll pre ↔ ∃ c n w, cs.getNode c = some n
      ∧ x = pre ++ c :: w ∧ n.containsW w = true)
  | .nil, pre, _, x => by
    simp [ChildList.collectAll, ChildList.getNode]
  | .cons c n rest, pre, hwf, x => by
    obtain ⟨hn, hrest, hkey⟩ := wfc_parts hwf
    rw [show (ChildList.cons c n rest).collectAll pre
        = TrieNode.collect n (pre ++ [c]) ++ rest.collectAll pre from rfl]
    rw [List.mem_append, collect_mem n (pre ++ [c]) hn x,
      collectAll_mem rest pre hrest x]
    constructor
    · rintro (⟨w, hx, hc⟩ | ⟨c', n', w, hget, hx, hc⟩)
      · exact ⟨c, n, w, by simp [ChildList.getNode],
          by simpa [List.append_assoc] using hx, hc⟩
      · have hcc : c ≠ c' := by
          intro hh
          subst hh
          rw [getNode_some_hasKey hget] at hkey
          simp at hkey
        exact ⟨c', n', w, by simp [ChildList.getNode, hcc, hget], hx, hc⟩
    · rintro ⟨c', n', w, hget, hx, hc⟩
      by_cases hcc : c = c'
      · subst hcc
        rw [show (ChildList.cons c n rest).getNode c = some n from
          by simp [ChildList.getNode]] at hget
        injection hget with hget
        subst hget
        exact Or.inl ⟨w, by simpa [List.append_assoc] using hx, hc⟩
      · rw [show (ChildList.cons c n rest).getNode c' = rest.getNode c' from
          by simp [ChildList.getNode, hcc]] at hget
        exact Or.inr ⟨c', n', w, hget, hx, hc⟩
end

theorem isPrefixB_iff (p : Str) : ∀ s : Str,
    (isPrefixB p s = true ↔ ∃ w, s = p ++ w) := by
  induction p with
  | nil => intro s; simp [isPrefixB]
  | cons a p ih =>
    intro s
    cases s with
    | nil =>
      simp [isPrefixB]
    | cons b s =>
      by_cases hab : a = b
      · subst hab
        simp only [isPrefixB, if_pos rfl, List.cons_append,
          List.cons.injEq, true_and]
        simpa using ih s
      · simp only [isPrefixB, hab, if_false, List.cons_append,
          List.cons.injEq]
        constructor
        · intro hf; exact absurd hf (by simp)
        · rintro ⟨w, hw, _⟩; exact absurd hw.symm hab

theorem containsW_fromWords (ws : List Str) (w : Str) :
    (Trie.fromWords ws).containsW w = true ↔ w ∈ ws := by
  unfold Trie.fromWords
  rw [containsW_foldl]
  simp [containsW_empty]

theorem autocomplete_fromWords_mem (ws : List Str) (p s : Str) :
    s ∈ (Trie.fromWords ws).autocomplete p
      ↔ (s ∈ ws ∧ isPrefixB p s = true) := by
  have hwf : (Trie.fromWords ws).WF := wf_fromWords ws
  unfold TrieNode.autocomplete
  cases hs : (Trie.fromWords ws).search p with
  | none =>
    simp only [List.not_mem_nil, false_iff, not_and]
    intro hmem hpre
    obtain ⟨w, hw⟩ := (isPrefixB_iff p s).mp hpre
    subst hw
    have hc := (containsW_fromWords ws (p ++ w)).mpr hmem
    rw [containsW_append_search, hs] at hc
    simp at hc
  | some n =>
    have hnwf : n.WF := wf_search p hwf hs
    rw [collect_mem n p hnwf s]
    constructor
    · rintro ⟨w, rfl, hc⟩
      have he : (Trie.fromWords ws).containsW (p ++ w) = n.containsW w := by
        rw [containsW_append_search, hs]
      refine ⟨(containsW_fromWords ws _).mp (by rw [he]; exact hc),
        (isPrefixB_iff _ _).mpr ⟨w, rfl⟩⟩
    · rintro ⟨hmem, hpre⟩
      obtain ⟨w, rfl⟩ := (isPrefixB_iff p s).mp hpre
      have hc := (containsW_fromWords ws _).mpr hmem
      rw [containsW_append_search, hs] at hc
      exact ⟨w, rfl, hc⟩

/-- C10.  Insert/search round trip for the trie of `utils.ts`: a word is
reported as an end-of-word node exactly when it was inserted, and
`autocomplete p` returns exactly the inserted words having `p` as a
prefix. -/
theorem c10_trie_roundtrip (ws : List Str) :
    (∀ w, (Trie.fromWords ws).containsW w = true ↔ w ∈ ws)
    ∧ (∀ p s, s ∈ (Trie.fromWords ws).autocomplete p
        ↔ (s ∈ ws ∧ isPrefixB p s = true)) :=
  ⟨containsW_fromWords ws, autocomplete_fromWords_mem ws⟩

mutual
theorem collect_shape : ∀ (t : TrieNode) (pre x : Str),
    x ∈ t.collect pre → ∃ w, x = pre ++ w
  | .mk e cs, pre, x, h => by
    rw [show (TrieNode.mk e cs).collect pre
        = (if e then [pre] else []) ++ ChildList.collectAll cs pre from rfl,
      List.mem_append] at h
    rcases h with h | h
    · refine ⟨[], ?_⟩
      by_cases he : e = true
      · rw [if_pos he] at h
        simpa using h
      · rw [if_neg he] at h
        simp at h
    · obtain ⟨c, w, hx, _⟩ := collectAll_shape cs pre x h
      exact ⟨c :: w, hx⟩
theorem collectAll_shape : ∀ (cs : ChildList) (pre x : Str),
    x ∈ cs.collectAll pre →
      ∃ c w, x = pre ++ c :: w ∧ cs.hasKey c = true
  | .nil, pre, x, h => by simp [ChildList.collectAll] at h
  | .cons c n rest, pre, x, h => by
    rw [show (ChildList.cons c n rest).collectAll pre
        = TrieNode.collect n (pre ++ [c]) ++ rest.collectAll pre from rfl,
      List.mem_append] at h
    rcases h with h | h
    · obtain ⟨w, hx⟩ := collect_shape n (pre ++ [c]) x h
      refine ⟨c, w, by simpa [List.append_assoc] using hx, ?_⟩
      simp [ChildList.hasKey]
    · obtain ⟨c', w, hx, hk⟩ := collectAll_shape rest pre x h
      exact ⟨c', w, hx, by simp [ChildList.hasKey, hk]⟩
end

mutual
theorem collect_nodup : ∀ (t : TrieNode) (pre : Str), t.WF →
    (t.collect pre).Nodup
  | .mk e cs, pre, hwf => by
    have hcs : cs.WFC := wf_children hwf
    rw [show (TrieNode.mk e cs).collect pre
        = (if e then [pre] else []) ++ ChildList.collectAll cs pre from rfl]
    refine List.Nodup.append ?_ (collectAll_nodup cs pre hcs) ?_
    · by_cases he : e = true
      · rw [if_pos he]; simp
      · rw [if_neg he]; simp
    · intro a ha hb
      by_cases he : e = true
      · rw [if_pos he] at ha
        simp at ha
        obtain ⟨c, w, hx, _⟩ := collectAll_shape cs pre a hb
        rw [ha] at hx
        have hlen := congrArg List.length hx
        simp at hlen
      · rw [if_neg he] at ha
        simp at ha
theorem collectAll_nodup : ∀ (cs : ChildList) (pre : Str), cs.WFC →
    (cs.collectAll pre).Nodup
  | .nil, pre, _ => by simp [ChildList.collectAll]
  | .cons c n rest, pre, hwf => by
    obtain ⟨hn, hrest, hkey⟩ := wfc_parts hwf
    rw [show (ChildList.cons c n rest).collectAll pre
        = TrieNode.collect n (pre ++ [c]) ++ rest.collectAll pre from rfl]
    refine List.Nodup.append (collect_nodup n (pre ++ [c]) hn)
      (collectAll_nodup rest pre hrest) ?_
    intro a ha hb
    obtain ⟨w, hx⟩ := collect_shape n (pre ++ [c]) a ha
    obtain ⟨c', w', hx', hk⟩ := collectAll_shape rest pre a hb
    rw [hx'] at hx
    rw [List.append_assoc] at hx
    have h0 : c' :: w' = [c] ++ w := List.append_cancel_left hx
    simp only [List.singleton_append, List.cons.injEq] at h0
    rw [h0.1] at hk
    rw [hk] at hkey
    simp at hkey
end

theorem autocomplete_nodup (t : TrieNode) (hwf : t.WF) (p : Str) :
    (t.autocomplete p).Nodup := by
  unfold TrieNode.autocomplete
  cases hs : t.search p with
  | none => simp
  | some n => exact collect_nodup n p (wf_search p hwf hs)

/-! ### Completion theorems -/

theorem mem_insertSortedStr (x y : Str) (l : List Str) :
    y ∈ insertSortedStr x l ↔ y ∈ x :: l := by
  induction l with
  | nil => simp [insertSortedStr]
  | cons a l ih =>
    simp only [insertSortedStr]
    by_cases h : lexLe x a = true
    · rw [if_pos h]
    · rw [if_neg h]
      simp only [List.mem_cons, ih]
      tauto

theorem mem_sortStrings (x : Str) (l : List Str) :
    x ∈ sortStrings l ↔ x ∈ l := by
  induction l with
  | nil => simp [sortStrings]
  | cons a l ih =>
    simp only [sortStrings, mem_insertSortedStr, List.mem_cons, ih]

theorem length_insertSortedStr (x : Str) (l : List Str) :
    (insertSortedStr x l).length = l.length + 1 := by
  induction l with
  | nil => simp [insertSortedStr]
  | cons a l ih =>
    simp only [insertSortedStr]
    by_cases h : lexLe x a = true
    · simp [h]
    · simp [h, ih]

theorem length_sortStrings (l : List Str) :
    (sortStrings l).length = l.length := by
  induction l with
  | nil => rfl
  | cons a l ih => simp [sortStrings, length_insertSortedStr, ih]

theorem isPrefixB_refl (l : Str) : isPrefixB l l = true := by
  induction l with
  | nil => rfl
  | cons a l ih => simp [isPrefixB, ih]

theorem isPrefixB_trans {a b c : Str} (h1 : isPrefixB a b = true)
    (h2 : isPrefixB b c = true) : isPrefixB a c = true := by
  obtain ⟨w1, hw1⟩ := (isPrefixB_iff a b).mp h1
  obtain ⟨w2, hw2⟩ := (isPrefixB_iff b c).mp h2
  exact (isPrefixB_iff a c).mpr ⟨w1 ++ w2, by rw [hw2, hw1, List.append_assoc]⟩

theorem isPrefixB_length {a b : Str} (h : isPrefixB a b = true) :
    a.length ≤ b.length := by
  obtain ⟨w, hw⟩ := (isPrefixB_iff a b).mp h
  rw [hw]
  simp

theorem isPrefixB_antisymm {a b : Str} (h1 : isPrefixB a b = true)
    (h2 : isPrefixB b a = true) : a = b := by
  obtain ⟨w1, hw1⟩ := (isPrefixB_iff a b).mp h1
  have hlen1 := isPrefixB_length h1
  have hlen2 := isPrefixB_length h2
  have hw1len : b.length = a.length + w1.length := by rw [hw1]; simp
  have hnil : w1 = [] :=
    List.eq_nil_of_length_eq_zero (by omega)
  rw [hw1, hnil]
  simp

theorem isPrefixB_dropLast_self (l : Str) :
    isPrefixB l.dropLast l = true := by
  rw [isPrefixB_iff]
  cases hl : l.getLast? with
  | none =>
    have : l = [] := by cases l <;> simp_all [List.getLast?_eq_getLast]
    subst this
    exact ⟨[], rfl⟩
  | some a =>
    exact ⟨[a], (List.dropLast_append_getLast? a hl).symm⟩

theorem isPrefixB_dropLast {c p : Str} (h1 : isPrefixB c p = true)
    (h2 : c ≠ p) : isPrefixB c p.dropLast = true := by
  obtain ⟨w, hw⟩ := (isPrefixB_iff c p).mp h1
  have hwne : w ≠ [] := by
    intro hnil
    rw [hnil] at hw
    simp at hw
    exact h2 hw.symm
  rw [isPrefixB_iff]
  refine ⟨w.dropLast, ?_⟩
  rw [hw, List.dropLast_append_of_ne_nil c hwne]

theorem shorten_isPrefixB (p s : Str) :
    isPrefixB (shortenToPrefixOf p s) s = true := by
  unfold shortenToPrefixOf
  split
  · next h => exact h
  · next h => exact shorten_isPrefixB p.dropLast s
termination_by p.length
decreasing_by
  rename_i h
  cases p with
  | nil => simp [isPrefixB] at h
  | cons a q => simp [List.length_dropLast]

theorem shorten_isPrefixB_self (p s : Str) :
    isPrefixB (shortenToPrefixOf p s) p = true := by
  unfold shortenToPrefixOf
  split
  · exact isPrefixB_refl p
  · next h =>
    exact isPrefixB_trans (shorten_isPrefixB_self p.dropLast s)
      (isPrefixB_dropLast_self p)
termination_by p.length
decreasing_by
  rename_i h
  cases p with
  | nil => simp [isPrefixB] at h
  | cons a q => simp [List.length_dropLast]

theorem shorten_preserves {c : Str} (p s : Str) (h1 : isPrefixB c p = true)
    (h2 : isPrefixB c s = true) :
    isPrefixB c (shortenToPrefixOf p s) = true := by
  unfold shortenToPrefixOf
  split
  · exact h1
  · next h =>
    refine shorten_preserves p.dropLast s (isPrefixB_dropLast h1 ?_) h2
    intro hcp
    subst hcp
    exact h h2
termination_by p.length
decreasing_by
  rename_i h
  cases p with
  | nil => simp [isPrefixB] at h
  | cons a q => simp [List.length_dropLast]

theorem foldl_shorten_acc (l : List Str) :
    ∀ acc : Str, isPrefixB (l.foldl shortenToPrefixOf acc) acc = true := by
  induction l with
  | nil => intro acc; exact isPrefixB_refl acc
  | cons x l ih =>
    intro acc
    simp only [List.foldl_cons]
    exact isPrefixB_trans (ih (shortenToPrefixOf acc x))
      (shorten_isPrefixB_self acc x)

theorem foldl_shorten_mem (l : List Str) :
    ∀ (acc s : Str), s ∈ l →
      isPrefixB (l.foldl shortenToPrefixOf acc) s = true := by
  induction l with
  | nil => intro acc s h; simp at h
  | cons x l ih =>
    intro acc s h
    simp only [List.foldl_cons]
    rcases List.mem_cons.mp h with h1 | h1
    · subst h1
      exact isPrefixB_trans (foldl_shorten_acc l _) (shorten_isPrefixB acc s)
    · exact ih _ s h1

theorem foldl_shorten_maximal (l : List Str) :
    ∀ (acc c : Str), isPrefixB c acc = true →
      (∀ s ∈ l, isPrefixB c s = true) →
      isPrefixB c (l.foldl shortenToPrefixOf acc) = true := by
  induction l with
  | nil => intro acc c h _; exact h
  | cons x l ih =>
    intro acc c h hall
    simp only [List.foldl_cons]
    exact ih _ c (shorten_preserves acc x h (hall x (by simp)))
      (fun s hs => hall s (by simp [hs]))

/-- `findLCP` of a nonempty list is a common prefix of all its elements. -/
theorem findLCP_common {l : List Str} (hne : l ≠ []) :
    ∀ s ∈ l, isPrefixB (findLCP l) s = true := by
  cases l with
  | nil => exact absurd rfl hne
  | cons x rest =>
    intro s hs
    rcases List.mem_cons.mp hs with h | h
    · subst h
      exact foldl_shorten_acc rest s
    · exact foldl_shorten_mem rest x s h

/-- Every common prefix of the elements is a prefix of `findLCP`: the value
returned really is the longest common prefix. -/
theorem findLCP_maximal {l : List Str} (c : Str) (hne : l ≠ [])
    (hall : ∀ s ∈ l, isPrefixB c s = true) :
    isPrefixB c (findLCP l) = true := by
  cases l with
  | nil => exact absurd rfl hne
  | cons x rest =>
    exact foldl_shorten_maximal rest x c (hall x (by simp))
      (fun s hs => hall s (by simp [hs]))

theorem nodup_singleton_of (l : List Str) (w : Str) (hnd : l.Nodup)
    (hmem : w ∈ l) (hall : ∀ x ∈ l, x = w) : l = [w] := by
  cases l with
  | nil => simp at hmem
  | cons a l' =>
    have ha : a = w := hall a (by simp)
    subst ha
    cases l' with
    | nil => rfl
    | cons b l'' =>
      have hb : b = a := hall b (by simp)
      subst hb
      simp at hnd

/-- C6.  For nonempty query lines (see the counterexample: the completer
returns no completion at all for the empty line, which the claim as frozen
does not exclude), completion behaves as claimed: with exactly one trie
entry extending the input, the returned completion is that entry plus one
space; with at least two matches whose computed LCP strictly extends the
input, the returned completion is that LCP (no space), and it is indeed the
longest common prefix of the matching entries (a common prefix of them all,
maximal among common prefixes). -/
theorem c6_completion (ws : List Str) (line : Str) (hline : line ≠ []) :
    (∀ w : Str,
      (∀ s : Str, (s ∈ ws ∧ isPrefixB (jsTrim line) s = true) ↔ s = w) →
      completer (Trie.fromWords ws) line = ([w ++ [' ']], jsTrim line))
    ∧ (∀ lcp : Str,
        2 ≤ ((Trie.fromWords ws).autocomplete (jsTrim line)).length →
        lcp = findLCP (sortStrings
          ((Trie.fromWords ws).autocomplete (jsTrim line))) →
        (jsTrim line).length < lcp.length →
        completer (Trie.fromWords ws) line = ([lcp], jsTrim line)
        ∧ (∀ s ∈ ws, isPrefixB (jsTrim line) s = true →
            isPrefixB lcp s = true)
        ∧ (∀ c : Str,
            (∀ s ∈ ws, isPrefixB (jsTrim line) s = true →
              isPrefixB c s = true) →
            isPrefixB c lcp = true)) := by
  have hlen0 : ¬ line.length = 0 := fun h => hline (List.length_eq_zero.mp h)
  constructor
  · intro w huniq
    have hmm : ∀ x ∈ (Trie.fromWords ws).autocomplete (jsTrim line), x = w :=
      fun x hx => (huniq x).mp ((autocomplete_fromWords_mem ws _ x).mp hx)
    have hwmem : w ∈ (Trie.fromWords ws).autocomplete (jsTrim line) :=
      (autocomplete_fromWords_mem ws _ w).mpr ((huniq w).mpr rfl)
    have hnd := autocomplete_nodup _ (wf_fromWords ws) (jsTrim line)
    have hsing : (Trie.fromWords ws).autocomplete (jsTrim line) = [w] :=
      nodup_singleton_of _ w hnd hwmem hmm
    have htab : handleTabCompletion (Trie.fromWords ws) line
        = ([w ++ [' ']], jsTrim line) := by
      unfold handleTabCompletion
      rw [if_neg hlen0]
      simp only [hsing]
      by_cases hcw : (Trie.fromWords ws).containsW (jsTrim line) = true
      · have hinmem : jsTrim line ∈ (Trie.fromWords ws).autocomplete (jsTrim line) :=
          (autocomplete_fromWords_mem ws _ _).mpr
            ⟨(containsW_fromWords ws _).mp hcw, isPrefixB_refl _⟩
        have hiw : jsTrim line = w := by
          rw [hsing] at hinmem
          simpa using hinmem
        rw [hcw]
        simp [hiw]
      · have hcw2 : (Trie.fromWords ws).containsW (jsTrim line) = false :=
          Bool.eq_false_iff.mpr hcw
        rw [hcw2]
        simp
    unfold completer
    rw [htab]
  · intro lcp hlen2 hlcp hstrict
    obtain ⟨a, b, rest, hmatch⟩ :
        ∃ a b rest, (Trie.fromWords ws).autocomplete (jsTrim line)
          = a :: b :: rest := by
      cases hm : (Trie.fromWords ws).autocomplete (jsTrim line) with
      | nil => rw [hm] at hlen2; simp at hlen2
      | cons a tl =>
        cases tl with
        | nil => rw [hm] at hlen2; simp at hlen2
        | cons b rest => exact ⟨a, b, rest, rfl⟩
    have htab : handleTabCompletion (Trie.fromWords ws) line
        = (sortStrings (a :: b :: rest), jsTrim line) := by
      unfold handleTabCompletion
      rw [if_neg hlen0]
      simp only [hmatch]
    have hsortlen : (sortStrings (a :: b :: rest)).length = rest.length + 2 := by
      rw [length_sortStrings]
      simp
    obtain ⟨a', b', rest', hsort⟩ :
        ∃ a' b' rest', sortStrings (a :: b :: rest) = a' :: b' :: rest' := by
      cases hs : sortStrings (a :: b :: rest) with
      | nil => rw [hs] at hsortlen; simp at hsortlen
      | cons a' tl =>
        cases tl with
        | nil => rw [hs] at hsortlen; simp at hsortlen
        | cons b' rest' => exact ⟨a', b', rest', rfl⟩
    have hcompleter : completer (Trie.fromWords ws) line
        = ([lcp], jsTrim line) := by
      unfold completer
      rw [htab]
      simp only [hsort]
      rw [← hsort, ← hmatch, ← hlcp]
      rw [if_pos hstrict]
    have hsne : sortStrings ((Trie.fromWords ws).autocomplete (jsTrim line)) ≠ [] := by
      rw [hmatch, hsort]
      simp
    refine ⟨hcompleter, ?_, ?_⟩
    · intro s hs hpre
      have hsmem : s ∈ (Trie.fromWords ws).autocomplete (jsTrim line) :=
        (autocomplete_fromWords_mem ws _ s).mpr ⟨hs, hpre⟩
      have hsmem2 : s ∈ sortStrings ((Trie.fromWords ws).autocomplete (jsTrim line)) :=
        (mem_sortStrings s _).mpr hsmem
      rw [hlcp]
      exact findLCP_common hsne s hsmem2
    · intro c hc
      rw [hlcp]
      refine findLCP_maximal c hsne ?_
      intro s hsmem
      have hs2 : s ∈ (Trie.fromWords ws).autocomplete (jsTrim line) :=
        (mem_sortStrings s _).mp hsmem
      obtain ⟨hsw, hsp⟩ := (autocomplete_fromWords_mem ws _ s).mp hs2
      exact hc s hsw hsp

/-- C6 witness: the single entry `echo` completes the line `e` to
`"echo "`. -/
theorem c6_completion_witness :
    completer (Trie.fromWords [strl "echo"]) (strl "e")
      = ([strl "echo" ++ [' ']], jsTrim (strl "e")) :=
  (c6_completion [strl "echo"] (strl "e") (by decide)).1 (strl "echo")
    (by
      intro s
      constructor
      · rintro ⟨hs, _⟩
        simpa using hs
      · rintro rfl
        exact ⟨by simp, by decide⟩)

/-- C6 counterexample: for the empty line, the trie `{"a"}` has exactly one
entry with the (empty) input as a prefix, yet the completer returns no
completion at all instead of the entry followed by a space. -/
theorem c6_empty_line_cex :
    (∀ s : Str, (s ∈ [strl "a"] ∧ isPrefixB ([] : Str) s = true) ↔ s = strl "a")
    ∧ completer (Trie.fromWords [strl "a"]) [] = ([], [])
    ∧ (([], ([] : Str)) : List Str × Str) ≠ ([strl "a" ++ [' ']], []) := by
  refine ⟨?_, by decide, by decide⟩
  intro s
  constructor
  · rintro ⟨hs, _⟩
    simpa using hs
  · rintro rfl
    exact ⟨by simp, rfl⟩

end Shell
